import Mathlib

set_option autoImplicit false
set_option maxRecDepth 8192

/-
Verification development for the history plugin (a sequelize model plugin that
tracks field changes of a source model into a shadow history table) and for the
two lodash array-transform snippets shipped in the same repository.

JavaScript plain objects are embedded as association lists over String keys;
property access, assignment, lodash pick and lodash merge are given explicit
executable definitions that mirror the library semantics used by the source.
-/

deriving instance DecidableEq for Except

namespace HistoryPlugin

universe u

/-- Lookup of the first value bound to a key in an association list, mirroring
JavaScript property access on a plain object. -/
def kvLookup {α : Type u} : List (String × α) → String → Option α
  | [], _ => none
  | (k, v) :: rest, key => if k = key then some v else kvLookup rest key

/-- Assignment on a JavaScript object: replace the value at an existing key,
keeping its position, or append the binding when the key is absent. -/
def kvSet {α : Type u} : List (String × α) → String → α → List (String × α)
  | [], key, v => [(key, v)]
  | (k, w) :: rest, key, v =>
      if k = key then (key, v) :: rest else (k, w) :: kvSet rest key v

/-- Lodash pick: keep the listed keys, in the order of the key list, skipping
keys that are absent from the object. -/
def kvPick {α : Type u} (l : List (String × α)) (keys : List String) :
    List (String × α) :=
  keys.filterMap (fun k => (kvLookup l k).map (fun v => (k, v)))

theorem kvLookup_append {α : Type u} (l₁ l₂ : List (String × α)) (key : String) :
    kvLookup (l₁ ++ l₂) key =
      match kvLookup l₁ key with
      | some v => some v
      | none => kvLookup l₂ key := by
  induction l₁ with
  | nil => rfl
  | cons p rest ih =>
    obtain ⟨k, v⟩ := p
    by_cases h : k = key
    · simp [kvLookup, h]
    · simpa [kvLookup, h] using ih

theorem kvLookup_set_self {α : Type u} (l : List (String × α)) (key : String) (v : α) :
    kvLookup (kvSet l key v) key = some v := by
  induction l with
  | nil => simp [kvSet, kvLookup]
  | cons p rest ih =>
    obtain ⟨k, w⟩ := p
    by_cases h : k = key
    · simp [kvSet, h, kvLookup]
    · simpa [kvSet, h, kvLookup] using ih

theorem kvLookup_set_ne {α : Type u} (l : List (String × α)) (key other : String) (v : α)
    (h : other ≠ key) : kvLookup (kvSet l key v) other = kvLookup l other := by
  induction l with
  | nil =>
    have hko : ¬ key = other := fun hh => h hh.symm
    simp [kvSet, kvLookup, hko]
  | cons p rest ih =>
    obtain ⟨k, w⟩ := p
    by_cases hk : k = key
    · have hko : ¬ key = other := fun hh => h hh.symm
      have hkother : ¬ k = other := fun hh => h (hh.symm.trans hk)
      simp [kvSet, hk, kvLookup, hko, hkother]
    · by_cases ho : k = other
      · simp [kvSet, hk, kvLookup, ho, h]
      · simpa [kvSet, hk, kvLookup, ho] using ih

theorem kvLookup_pick_not_mem {α : Type u} (l : List (String × α)) (keys : List String)
    (key : String) (h : key ∉ keys) : kvLookup (kvPick l keys) key = none := by
  induction keys with
  | nil => rfl
  | cons k rest ih =>
    have hk : ¬ k = key := fun hh => h (hh ▸ List.mem_cons_self k rest)
    have hrest : key ∉ rest := fun hh => h (List.mem_cons_of_mem k hh)
    cases hl : kvLookup l k with
    | none => simpa [kvPick, hl] using ih hrest
    | some v =>
      have := ih hrest
      simp only [kvPick] at this ⊢
      simp [hl, kvLookup, hk, this]

theorem kvLookup_pick_mem {α : Type u} (l : List (String × α)) (keys : List String)
    (key : String) (h : key ∈ keys) : kvLookup (kvPick l keys) key = kvLookup l key := by
  induction keys with
  | nil => simp at h
  | cons k rest ih =>
    by_cases hk : k = key
    · subst hk
      cases hl : kvLookup l k with
      | none =>
        by_cases hmem : k ∈ rest
        · simpa [kvPick, hl] using (ih hmem).trans hl
        · have := kvLookup_pick_not_mem l rest k hmem
          simp only [kvPick] at this ⊢
          simp [hl, this]
      | some v => simp [kvPick, hl, kvLookup]
    · have hmem : key ∈ rest := by
        rcases List.mem_cons.mp h with h1 | h2
        · exact absurd h1.symm hk
        · exact h2
      cases hl : kvLookup l k with
      | none => simpa [kvPick, hl] using ih hmem
      | some v =>
        have := ih hmem
        simp only [kvPick] at this ⊢
        simp [hl, kvLookup, hk, this]

theorem fst_mem_of_mem_pick {α : Type u} (l : List (String × α)) (keys : List String)
    (p : String × α) (h : p ∈ kvPick l keys) : p.1 ∈ keys := by
  induction keys with
  | nil => simp [kvPick] at h
  | cons k rest ih =>
    cases hl : kvLookup l k with
    | none =>
      simp only [kvPick] at h ih
      rw [List.filterMap_cons, hl] at h
      exact List.mem_cons_of_mem k (ih h)
    | some v =>
      simp only [kvPick] at h ih
      rw [List.filterMap_cons, hl] at h
      simp only [Option.map] at h
      rcases List.mem_cons.mp h with h1 | h2
      · exact h1 ▸ List.mem_cons_self k rest
      · exact List.mem_cons_of_mem k (ih h2)

theorem mem_pick_of_lookup {α : Type u} (l : List (String × α)) (keys : List String)
    (key : String) (v : α) (hk : key ∈ keys) (hl : kvLookup l key = some v) :
    (key, v) ∈ kvPick l keys := by
  induction keys with
  | nil => simp at hk
  | cons k rest ih =>
    by_cases h : k = key
    · subst h
      simp [kvPick, hl]
    · have hmem : key ∈ rest := by
        rcases List.mem_cons.mp hk with h1 | h2
        · exact absurd h1.symm h
        · exact h2
      cases hlk : kvLookup l k with
      | none => simpa [kvPick, hlk] using ih hmem
      | some w =>
        have := ih hmem
        simp only [kvPick] at this ⊢
        rw [List.filterMap_cons, hlk]
        simp only [Option.map]
        exact List.mem_cons_of_mem _ this

/-- One step of a lodash merge of a source object into a destination object:
a source value that satisfies the skip test is ignored (lodash skips undefined
source values), a binding for an existing key combines the two values with f
(lodash recurses into mergeable values and assigns otherwise), and a binding
for a fresh key is appended. -/
def mergeStep {α : Type u} (skip : α → Bool) (f : α → α → α)
    (acc : List (String × α)) (kv : String × α) : List (String × α) :=
  if skip kv.2 then acc
  else
    match kvLookup acc kv.1 with
    | some old => kvSet acc kv.1 (f old kv.2)
    | none => acc ++ [kv]

/-- Lodash merge of a source object into a destination object, processing the
source bindings left to right. -/
def mergeInto {α : Type u} (skip : α → Bool) (f : α → α → α)
    (dst src : List (String × α)) : List (String × α) :=
  src.foldl (mergeStep skip f) dst

theorem kvLookup_mergeStep_ne {α : Type u} (skip : α → Bool) (f : α → α → α)
    (acc : List (String × α)) (kv : String × α) (key : String) (h : key ≠ kv.1) :
    kvLookup (mergeStep skip f acc kv) key = kvLookup acc key := by
  unfold mergeStep
  by_cases hs : skip kv.2
  · simp [hs]
  · simp only [hs, Bool.false_eq_true, if_false]
    cases hl : kvLookup acc kv.1 with
    | some old => exact kvLookup_set_ne acc kv.1 key (f old kv.2) h
    | none =>
      rw [kvLookup_append]
      cases ho : kvLookup acc key with
      | some w => simp
      | none =>
        have hne : ¬ kv.1 = key := fun hh => h hh.symm
        simp [kvLookup, hne]

theorem kvLookup_mergeStep_self_found {α : Type u} (skip : α → Bool) (f : α → α → α)
    (acc : List (String × α)) (key : String) (v old : α) (hs : skip v = false)
    (hl : kvLookup acc key = some old) :
    kvLookup (mergeStep skip f acc (key, v)) key = some (f old v) := by
  unfold mergeStep
  simp only [hs, Bool.false_eq_true, if_false, hl]
  exact kvLookup_set_self acc key (f old v)

theorem kvLookup_mergeStep_self_fresh {α : Type u} (skip : α → Bool) (f : α → α → α)
    (acc : List (String × α)) (key : String) (v : α) (hs : skip v = false)
    (hl : kvLookup acc key = none) :
    kvLookup (mergeStep skip f acc (key, v)) key = some v := by
  unfold mergeStep
  simp only [hs, Bool.false_eq_true, if_false, hl]
  rw [kvLookup_append]
  simp [hl, kvLookup]

theorem mergeStep_skip {α : Type u} (skip : α → Bool) (f : α → α → α)
    (acc : List (String × α)) (kv : String × α) (hs : skip kv.2 = true) :
    mergeStep skip f acc kv = acc := by
  unfold mergeStep
  simp [hs]

theorem kvLookup_mergeInto_all_skipped {α : Type u} (skip : α → Bool) (f : α → α → α)
    (dst src : List (String × α)) (key : String)
    (h : ∀ kv ∈ src, key = kv.1 → skip kv.2 = true) :
    kvLookup (mergeInto skip f dst src) key = kvLookup dst key := by
  induction src generalizing dst with
  | nil => rfl
  | cons kv rest ih =>
    have hrest : ∀ p ∈ rest, key = p.1 → skip p.2 = true :=
      fun p hp => h p (List.mem_cons_of_mem kv hp)
    by_cases hk : key = kv.1
    · have hskip := h kv (List.mem_cons_self kv rest) hk
      calc kvLookup (mergeInto skip f (mergeStep skip f dst kv) rest) key
          = kvLookup (mergeStep skip f dst kv) key := ih (mergeStep skip f dst kv) hrest
        _ = kvLookup dst key := by rw [mergeStep_skip skip f dst kv hskip]
    · calc kvLookup (mergeInto skip f (mergeStep skip f dst kv) rest) key
          = kvLookup (mergeStep skip f dst kv) key := ih (mergeStep skip f dst kv) hrest
        _ = kvLookup dst key := kvLookup_mergeStep_ne skip f dst kv key hk

theorem kvLookup_mergeInto_not_mem {α : Type u} (skip : α → Bool) (f : α → α → α)
    (dst src : List (String × α)) (key : String)
    (h : ∀ kv ∈ src, key ≠ kv.1) :
    kvLookup (mergeInto skip f dst src) key = kvLookup dst key := by
  induction src generalizing dst with
  | nil => rfl
  | cons kv rest ih =>
    have hkv : key ≠ kv.1 := h kv (List.mem_cons_self kv rest)
    have hrest : ∀ p ∈ rest, key ≠ p.1 := fun p hp => h p (List.mem_cons_of_mem kv hp)
    calc kvLookup (mergeInto skip f (mergeStep skip f dst kv) rest) key
        = kvLookup (mergeStep skip f dst kv) key := ih (mergeStep skip f dst kv) hrest
      _ = kvLookup dst key := kvLookup_mergeStep_ne skip f dst kv key hkv

theorem kvLookup_mergeInto_found {α : Type u} (skip : α → Bool) (f : α → α → α)
    (dst src : List (String × α)) (key : String) (v old : α)
    (hnd : (src.map Prod.fst).Nodup) (hmem : (key, v) ∈ src) (hs : skip v = false)
    (hl : kvLookup dst key = some old) :
    kvLookup (mergeInto skip f dst src) key = some (f old v) := by
  induction src generalizing dst with
  | nil => simp at hmem
  | cons kv rest ih =>
    rcases List.mem_cons.mp hmem with h1 | h2
    · have hkey : kv = (key, v) := h1.symm
      subst hkey
      have hnot : ∀ p ∈ rest, key ≠ p.1 := by
        intro p hp hh
        have : key ∈ rest.map Prod.fst := List.mem_map.mpr ⟨p, hp, hh.symm⟩
        exact (List.nodup_cons.mp hnd).1 this
      have hstep := kvLookup_mergeStep_self_found skip f dst key v old hs hl
      calc kvLookup (mergeInto skip f (mergeStep skip f dst (key, v)) rest) key
          = kvLookup (mergeStep skip f dst (key, v)) key :=
            kvLookup_mergeInto_not_mem skip f _ rest key hnot
        _ = some (f old v) := hstep
    · have hne : key ≠ kv.1 := by
        intro hh
        have : kv.1 ∈ rest.map Prod.fst := List.mem_map.mpr ⟨(key, v), h2, hh⟩
        exact (List.nodup_cons.mp hnd).1 this
      have hl2 : kvLookup (mergeStep skip f dst kv) key = some old :=
        (kvLookup_mergeStep_ne skip f dst kv key hne).trans hl
      exact ih (mergeStep skip f dst kv) (List.nodup_cons.mp hnd).2 h2 hl2

theorem kvLookup_mergeInto_fresh {α : Type u} (skip : α → Bool) (f : α → α → α)
    (dst src : List (String × α)) (key : String) (v : α)
    (hnd : (src.map Prod.fst).Nodup) (hmem : (key, v) ∈ src) (hs : skip v = false)
    (hl : kvLookup dst key = none) :
    kvLookup (mergeInto skip f dst src) key = some v := by
  induction src generalizing dst with
  | nil => simp at hmem
  | cons kv rest ih =>
    rcases List.mem_cons.mp hmem with h1 | h2
    · have hkey : kv = (key, v) := h1.symm
      subst hkey
      have hnot : ∀ p ∈ rest, key ≠ p.1 := by
        intro p hp hh
        have : key ∈ rest.map Prod.fst := List.mem_map.mpr ⟨p, hp, hh.symm⟩
        exact (List.nodup_cons.mp hnd).1 this
      have hstep := kvLookup_mergeStep_self_fresh skip f dst key v hs hl
      calc kvLookup (mergeInto skip f (mergeStep skip f dst (key, v)) rest) key
          = kvLookup (mergeStep skip f dst (key, v)) key :=
            kvLookup_mergeInto_not_mem skip f _ rest key hnot
        _ = some v := hstep
    · have hne : key ≠ kv.1 := by
        intro hh
        have : kv.1 ∈ rest.map Prod.fst := List.mem_map.mpr ⟨(key, v), h2, hh⟩
        exact (List.nodup_cons.mp hnd).1 this
      have hl2 : kvLookup (mergeStep skip f dst kv) key = none :=
        (kvLookup_mergeStep_ne skip f dst kv key hne).trans hl
      exact ih (mergeStep skip f dst kv) (List.nodup_cons.mp hnd).2 h2 hl2

theorem mem_pick_lookup {α : Type u} (l : List (String × α)) (keys : List String)
    (p : String × α) (h : p ∈ kvPick l keys) : kvLookup l p.1 = some p.2 := by
  induction keys with
  | nil => simp [kvPick] at h
  | cons k rest ih =>
    cases hl : kvLookup l k with
    | none =>
      simp only [kvPick] at h ih
      rw [List.filterMap_cons, hl] at h
      exact ih h
    | some v =>
      simp only [kvPick] at h ih
      rw [List.filterMap_cons, hl] at h
      simp only [Option.map] at h
      rcases List.mem_cons.mp h with h1 | h2
      · subst h1
        exact hl
      · exact ih h2

theorem pick_keys_nodup {α : Type u} (l : List (String × α)) (keys : List String)
    (h : keys.Nodup) : ((kvPick l keys).map Prod.fst).Nodup := by
  induction keys with
  | nil => simp [kvPick]
  | cons k rest ih =>
    have hk : k ∉ rest := (List.nodup_cons.mp h).1
    have hrest := ih (List.nodup_cons.mp h).2
    cases hl : kvLookup l k with
    | none =>
      simp only [kvPick] at hrest ⊢
      rw [List.filterMap_cons, hl]
      exact hrest
    | some v =>
      simp only [kvPick] at hrest ⊢
      rw [List.filterMap_cons, hl]
      simp only [Option.map, List.map_cons, List.nodup_cons]
      refine ⟨fun hmem => ?_, hrest⟩
      rcases List.mem_map.mp hmem with ⟨p, hp, hfst⟩
      exact hk (hfst ▸ fst_mem_of_mem_pick l rest p hp)

/-- Scalar runtime values stored in model instances: strings, numbers,
booleans, date objects (as a timestamp), and the JavaScript undefined value. -/
inductive JsPrim where
  | pstr : String → JsPrim
  | pnum : Int → JsPrim
  | pbool : Bool → JsPrim
  | pdate : Int → JsPrim
  | pundefined : JsPrim
deriving DecidableEq

/-- Runtime values stored in model instances and history records: a scalar or
an array of scalars. Arrays of scalars cover every value the plugin itself
builds or copies, in particular the _changes field-name array. -/
inductive JsVal where
  | prim : JsPrim → JsVal
  | vlist : List JsPrim → JsVal
deriving DecidableEq

/-- The JavaScript undefined value. -/
def JsVal.jsUndefined : JsVal := .prim .pundefined

/-- A string value. -/
def JsVal.str (s : String) : JsVal := .prim (.pstr s)

/-- A number value. -/
def JsVal.num (n : Int) : JsVal := .prim (.pnum n)

/-- A date value. -/
def JsVal.date (t : Int) : JsVal := .prim (.pdate t)

/-- Test for array values, used to state lodash merge behaviour. -/
def JsVal.isList : JsVal → Bool
  | .vlist _ => true
  | _ => false

/-- Lodash merge of one scalar source value over one scalar destination value:
an undefined source value is skipped, any other source value wins. -/
def mergePrim (old new : JsPrim) : JsPrim :=
  match new with
  | .pundefined => old
  | n => n

/-- Lodash merge of two arrays is positional: indices present in both arrays
are merged element-wise, surplus elements of either array survive. -/
def zipMergePrim : List JsPrim → List JsPrim → List JsPrim
  | os, [] => os
  | [], ns => ns
  | o :: os, n :: ns => mergePrim o n :: zipMergePrim os ns

/-- Lodash merge of one source value over one destination value: an undefined
source value is skipped, two arrays merge index-wise, and any other source
value replaces the destination value. -/
def mergeJsVal : JsVal → JsVal → JsVal
  | old, .prim .pundefined => old
  | .vlist os, .vlist ns => .vlist (zipMergePrim os ns)
  | _, new => new

theorem mergeJsVal_undefined_src (old : JsVal) : mergeJsVal old JsVal.jsUndefined = old := by
  cases old with
  | prim p => rfl
  | vlist os => rfl

theorem mergeJsVal_dst_not_list (old new : JsVal) (hold : old.isList = false)
    (hnew : new ≠ JsVal.jsUndefined) : mergeJsVal old new = new := by
  cases old with
  | vlist os => simp [JsVal.isList] at hold
  | prim p =>
    cases new with
    | vlist ns => rfl
    | prim q =>
      cases q with
      | pundefined => exact absurd rfl hnew
      | pstr s => rfl
      | pnum n => rfl
      | pbool b => rfl
      | pdate t => rfl

theorem mergeJsVal_src_not_list (old new : JsVal) (hnew1 : new.isList = false)
    (hnew2 : new ≠ JsVal.jsUndefined) : mergeJsVal old new = new := by
  cases new with
  | vlist ns => simp [JsVal.isList] at hnew1
  | prim q =>
    cases q with
    | pundefined => exact absurd rfl hnew2
    | pstr s => cases old with
      | prim p => rfl
      | vlist os => rfl
    | pnum n => cases old with
      | prim p => rfl
      | vlist os => rfl
    | pbool b => cases old with
      | prim p => rfl
      | vlist os => rfl
    | pdate t => cases old with
      | prim p => rfl
      | vlist os => rfl

/-- Lodash merge of a source object over a destination object holding runtime
values: undefined source values are skipped, values at shared keys are merged
with mergeJsVal, and fresh keys are appended. -/
def mergeRecord (dst src : List (String × JsVal)) : List (String × JsVal) :=
  mergeInto (fun v => decide (v = JsVal.jsUndefined)) mergeJsVal dst src

/-- Property values inside a normalized sequelize attribute definition: a
DataTypes reference named by its constructor text, a boolean flag, a string
flag such as a unique-constraint name, or the undefined value. -/
inductive PropVal where
  | ptype : String → PropVal
  | pflag : Bool → PropVal
  | pname : String → PropVal
  | pnone : PropVal
deriving DecidableEq

/-- A normalized sequelize attribute definition: a plain object mapping
property names such as type, allowNull, unique and autoIncrement to values. -/
abbrev AttrDef := List (String × PropVal)

/-- An attribute entry of the history model definition: either a plain
definition object, or a bare DataTypes shorthand as used by the _user, _date
and _changes meta attributes. -/
inductive AttrVal where
  | obj : AttrDef → AttrVal
  | typ : String → AttrVal
deriving DecidableEq

/-- Lodash merge of one source attribute definition over a destination one.
Property values are scalars, so the source property wins at shared property
names while destination-only properties survive. -/
def mergeProps (dst src : AttrDef) : AttrDef :=
  mergeInto (fun _ => false) (fun _ new => new) dst src

/-- Lodash merge of one source attribute entry over a destination entry: a
bare DataTypes shorthand is not a plain object, so it replaces the destination
wholesale, while two definition objects are merged property by property. -/
def mergeAttrVal (old new : AttrVal) : AttrVal :=
  match new with
  | .typ s => .typ s
  | .obj ps =>
      match old with
      | .obj qs => .obj (mergeProps qs ps)
      | .typ _ => .obj ps

/-- Lodash merge of the meta attribute map over the map of tracked attribute
definitions, as performed in internals.createHistoryModel. -/
def mergeAttrs (dst src : List (String × AttrVal)) : List (String × AttrVal) :=
  mergeInto (fun _ => false) mergeAttrVal dst src

/-- A sequelize source model: a name, a table name, and the map of normalized
attribute definitions. -/
structure SourceModel where
  name : String
  tableName : String
  attributes : List (String × AttrDef)
deriving DecidableEq

/-- The options record produced by validating caller options with joi against
internals.optionsSchema. -/
structure ResolvedOptions where
  track : List String
  idAttr : String
  modelName : String
  tableName : String
deriving DecidableEq

/-- Property access idAttr.type on an attribute definition. -/
def attrTypeOf (a : AttrDef) : PropVal :=
  (kvLookup a "type").getD PropVal.pnone

/-- The six meta attributes added to the history model definition, from
internals.createHistoryModel; the _sourceId entry reuses the type of the id
attribute of the source model. -/
def metaAttrs (idType : PropVal) : List (String × AttrVal) :=
  [("_id", .obj [("type", .ptype "INTEGER"), ("primaryKey", .pflag true),
      ("autoIncrement", .pflag true)]),
   ("_sourceId", .obj [("type", idType), ("allowNull", .pflag false),
      ("unique", .pname "naturalId")]),
   ("_revision", .obj [("type", .ptype "INTEGER"), ("unique", .pname "naturalId")]),
   ("_user", .typ "STRING"),
   ("_date", .typ "DATE"),
   ("_changes", .typ "ARRAY(STRING)")]

/-- Lodash omit of one property from an attribute definition. -/
def omitProp (a : AttrDef) (key : String) : AttrDef :=
  a.filter (fun p => decide (p.1 ≠ key))

/-- The history model definition produced by internals.createHistoryModel:
no timestamps, a secondary index on _sourceId, and an attribute map built by
picking the tracked source attributes, dropping their autoIncrement marker,
and lodash-merging the meta attributes on top. -/
structure HistoryModel where
  modelName : String
  tableName : String
  attrs : List (String × AttrVal)
  timestamps : Bool
  indexFields : List String
deriving DecidableEq

/-- Embedding of internals.createHistoryModel. Throwing is modelled by the
error case of Except; the thrown message is the one built in the source. -/
def createHistoryModel (model : SourceModel) (options : ResolvedOptions) :
    Except String HistoryModel :=
  match kvLookup model.attributes options.idAttr with
  | none =>
      .error ("Invalid id attribute for model " ++ model.name ++ ": " ++ options.idAttr)
  | some idAttr =>
      let tracked := (kvPick model.attributes options.track).map
        (fun p => (p.1, AttrVal.obj (omitProp p.2 "autoIncrement")))
      let attrs := mergeAttrs tracked (metaAttrs (attrTypeOf idAttr))
      .ok { modelName := options.modelName, tableName := options.tableName,
            attrs := attrs, timestamps := false, indexFields := ["_sourceId"] }

/-- A source model instance as seen by the post-update hook: current values,
previous values, and the list of changed field names that the changed method
of the instance reports for this update. -/
structure Instance where
  dataValues : List (String × JsVal)
  previousDataValues : List (String × JsVal)
  changed : List String
deriving DecidableEq

/-- JavaScript property access on an instance, yielding undefined for an
absent property. -/
def getVal (inst : Instance) (key : String) : JsVal :=
  (kvLookup inst.dataValues key).getD JsVal.jsUndefined

/-- Embedding of internals.writeHistory: pick the previous values of the
tracked fields, then lodash-merge the _sourceId, _date and _changes overlay on
top; the resulting record is the row handed to historyModel.create. -/
def writeHistory (options : ResolvedOptions) (now : Int) (inst : Instance) :
    List (String × JsVal) :=
  mergeRecord (kvPick inst.previousDataValues options.track)
    [("_sourceId", getVal inst options.idAttr),
     ("_date", JsVal.date now),
     ("_changes", JsVal.vlist (inst.changed.map JsPrim.pstr))]

/-- Lodash intersection of two string arrays: the elements of the first array
that also occur in the second, without duplicates. -/
def lodashIntersection (a b : List String) : List String :=
  (a.filter (fun x => b.contains x)).dedup

/-- Embedding of the afterUpdate hook registered by internals.addHooks: when
the intersection of the changed field names with the tracked field names is
non-empty the history writer appends one record to the history table,
otherwise the table is left untouched and nothing is raised. -/
def afterUpdateHook (histTable : List (List (String × JsVal)))
    (options : ResolvedOptions) (now : Int) (inst : Instance) :
    List (List (String × JsVal)) :=
  if 0 < (lodashIntersection inst.changed options.track).length then
    histTable ++ [writeHistory options now inst]
  else
    histTable

/-- A row of the history table as seen by the database trigger: its source id
value and its revision number. -/
structure HistRow where
  sourceId : String
  revision : Nat
deriving DecidableEq

/-- The rows of the table whose _sourceId equals the given source id. -/
def rowsFor (t : List HistRow) (sid : String) : List HistRow :=
  t.filter (fun r => decide (r.sourceId = sid))

/-- The SELECT coalesce(max(_revision), 0) subquery of the trigger function:
the maximum revision among the rows for the given source id, or 0 when there
are none. -/
def maxRevision (t : List HistRow) (sid : String) : Nat :=
  ((rowsFor t sid).map HistRow.revision).foldl max 0

/-- One insert through the before-insert trigger installed by the sync class
method: the incoming row receives revision maxRevision + 1 and is appended. -/
def triggerInsert (t : List HistRow) (sid : String) : List HistRow :=
  t ++ [{ sourceId := sid, revision := maxRevision t sid + 1 }]

/-- A sequence of n trigger inserts for the same source id. -/
def iterInsert (t : List HistRow) (sid : String) : Nat → List HistRow
  | 0 => t
  | n + 1 => triggerInsert (iterInsert t sid n) sid

/-- The revisions stored for a source id, in insertion order. -/
def revisionsFor (t : List HistRow) (sid : String) : List Nat :=
  (rowsFor t sid).map HistRow.revision

/-- Uniqueness of the pair of source id and revision across the table. -/
def pairUnique (t : List HistRow) : Prop :=
  t.Pairwise (fun r s => r.sourceId = s.sourceId → r.revision ≠ s.revision)

instance pairUnique.instDecidable (t : List HistRow) : Decidable (pairUnique t) := by
  unfold pairUnique
  infer_instance

/-- The first SQL statement text built in the sync class method, from
dropInsertTrigger. -/
def dropInsertTriggerSql (t : String) : String :=
  "DROP TRIGGER IF EXISTS insert_" ++ t ++ " ON " ++ t

/-- The SQL statement text built in the sync class method by createInsertFn,
with the two util.format placeholders interpolated. -/
def createInsertFnSql (t : String) : String :=
  "CREATE OR REPLACE FUNCTION insert_" ++ t ++
    "() RETURNS TRIGGER AS $$ BEGIN NEW._revision := (SELECT coalesce(max(_revision), 0) FROM " ++
    t ++ " WHERE \"_sourceId\" = NEW.\"_sourceId\") + 1; RETURN NEW; END; $$ language plpgsql;"

/-- The SQL statement text built in the sync class method by
createInsertTrigger. -/
def createInsertTriggerSql (t : String) : String :=
  "CREATE TRIGGER insert_" ++ t ++ " BEFORE INSERT ON " ++ t ++
    " FOR EACH ROW EXECUTE PROCEDURE insert_" ++ t ++ "()"

/-- A log of the SQL statements issued through sequelize.query, in order. -/
structure QueryLog where
  queries : List String
deriving DecidableEq

/-- Issue one statement. -/
def runQuery (env : QueryLog) (q : String) : QueryLog :=
  { queries := env.queries ++ [q] }

/-- The statements issued by the sync class method after the base model sync,
following its promise chain: first createInsertFn, then dropInsertTrigger,
then createInsertTrigger. -/
def syncRun (tableName : String) : QueryLog :=
  runQuery
    (runQuery (runQuery { queries := [] } (createInsertFnSql tableName))
      (dropInsertTriggerSql tableName))
    (createInsertTriggerSql tableName)

/-- A source model row as updated by restore. -/
structure SourceInstance where
  dataValues : List (String × JsVal)
deriving DecidableEq

/-- A history model row on which restore is invoked. -/
structure HistInstance where
  dataValues : List (String × JsVal)
deriving DecidableEq

/-- Sequential property assignment of the given values, the effect of
source.update on the updated row. -/
def applyValues (s : List (String × JsVal)) (vs : List (String × JsVal)) :
    List (String × JsVal) :=
  vs.foldl (fun acc kv => kvSet acc kv.1 kv.2) s

/-- The persistence-layer update call made by restore. -/
def sourceUpdate (s : SourceInstance) (vs : List (String × JsVal)) : SourceInstance :=
  { dataValues := applyValues s.dataValues vs }

/-- Embedding of the restore instance method: pick the tracked fields of this
history row, fetch the associated source row through the getSource association
getter (an external persistence call, passed here as its Except outcome), and
update the source row with the picked values; a failed fetch propagates the
error of the persistence layer and no update happens. -/
def restore (options : ResolvedOptions) (hist : HistInstance)
    (getSourceResult : Except String SourceInstance) : Except String SourceInstance :=
  let values := kvPick hist.dataValues options.track
  match getSourceResult with
  | .error e => .error e
  | .ok source => .ok (sourceUpdate source values)

/-- Scalar values accepted by the joi validation of caller options. -/
inductive JoiItem where
  | istr : String → JoiItem
  | inum : Int → JoiItem
  | ibool : Bool → JoiItem
deriving DecidableEq

/-- Values supplied by the caller for one option field: a scalar or an array
of scalars. -/
inductive JoiVal where
  | jstr : String → JoiVal
  | jnum : Int → JoiVal
  | jbool : Bool → JoiVal
  | jarr : List JoiItem → JoiVal
deriving DecidableEq

/-- Validation of array items against joi.string: every item must be a
string, otherwise validation fails. -/
def joiStrItems : List JoiItem → Except String (List String)
  | [] => .ok []
  | .istr s :: rest =>
      match joiStrItems rest with
      | .ok l => .ok (s :: l)
      | .error e => .error e
  | _ :: _ => .error "track must contain only strings"

/-- Validation of the track option against
joi.array().items(joi.string()).single().default(...): an absent value takes
the default, an array is validated item-wise, and any other value is wrapped
into a one-element array by single() before item validation. -/
def joiTrack (dflt : List String) : Option JoiVal → Except String (List String)
  | none => .ok dflt
  | some (.jarr items) => joiStrItems items
  | some (.jstr s) => .ok [s]
  | some _ => .error "track must contain only strings"

/-- Validation of a plain string option against joi.string().default(...). -/
def joiStr (dflt : String) : Option JoiVal → Except String String
  | none => .ok dflt
  | some (.jstr s) => .ok s
  | some _ => .error "value must be a string"

/-- The options object handed to the attach function before validation. -/
structure CallerOptions where
  track : Option JoiVal
  idAttr : Option JoiVal
  modelName : Option JoiVal
  tableName : Option JoiVal
deriving DecidableEq

/-- Embedding of joi.validate of the caller options against
internals.optionsSchema for the given source model: track defaults to the
attribute names of the model, idAttr to the string id, modelName to the model
name followed by History, and tableName to the table name followed by
_history. -/
def resolveOptions (model : SourceModel) (o : CallerOptions) :
    Except String ResolvedOptions :=
  match joiTrack (model.attributes.map Prod.fst) o.track with
  | .error e => .error e
  | .ok track =>
    match joiStr "id" o.idAttr with
    | .error e => .error e
    | .ok idAttr =>
      match joiStr (model.name ++ "History") o.modelName with
      | .error e => .error e
      | .ok modelName =>
        match joiStr (model.tableName ++ "_history") o.tableName with
        | .error e => .error e
        | .ok tableName =>
            .ok { track := track, idAttr := idAttr,
                  modelName := modelName, tableName := tableName }

end HistoryPlugin

namespace Snippets

/-- An element of the input array of the two snippets: an object with a
single numeric field a. -/
structure ArrElem where
  a : Int
deriving DecidableEq

/-- The context object with a single numeric field b, bound as the this value
of the iteratee. -/
structure MapCtx where
  b : Int
deriving DecidableEq

/-- The anonymous iteratee shared by both snippets: it returns obj.a plus
this.b, with the this value made explicit as a parameter. -/
def iteratee (thisCtx : MapCtx) (obj : ArrElem) : Int :=
  obj.a + thisCtx.b

/-- Lodash map applied to an iteratee of one argument, as in src/index.js
where the context is attached with Function.prototype.bind before the call. -/
def lodashMap (xs : List ArrElem) (f : ArrElem → Int) : List Int :=
  xs.map f

/-- Lodash 3 map with a thisArg third argument, as in the embedded snippet:
the iteratee is invoked with its this value bound to thisArg. -/
def lodashMapWithThisArg (xs : List ArrElem) (f : MapCtx → ArrElem → Int)
    (thisArg : MapCtx) : List Int :=
  xs.map (f thisArg)

/-- The fixed input array of both snippets. -/
def inputArr : List ArrElem := [{ a := 3 }, { a := 4 }]

/-- The fixed context object of both snippets. -/
def boundCtx : MapCtx := { b := 5 }

/-- The transformed list computed by src/index.js via bind. -/
def transformedIndexJs : List Int :=
  lodashMap inputArr (iteratee boundCtx)

/-- The transformed list computed by the embedded snippet via thisArg. -/
def transformedEmbedded : List Int :=
  lodashMapWithThisArg inputArr iteratee boundCtx

/-- The line printed by console.log: the join of the transformed list with a
comma and a space. -/
def printedLine (xs : List Int) : String :=
  String.intercalate ", " (xs.map toString)

end Snippets

namespace HistoryPlugin

/-- The trigger-function creation statement exactly as the specification
prints it, built from the specification text for comparison with the
statement the code builds. -/
def specCreateInsertFnSql (t : String) : String :=
  "CREATE OR REPLACE FUNCTION insert_" ++ t ++
    "() RETURNS TRIGGER AS $$ BEGIN NEW._revision := (SELECT coalesce(max(_revision),0) FROM " ++
    t ++ " WHERE \"_sourceId\" = NEW.\"_sourceId\") + 1; RETURN NEW; END; $$ LANGUAGE plpgsql;"

/-- The drop statement exactly as the specification prints it. -/
def specDropTriggerSql (t : String) : String :=
  "DROP TRIGGER IF EXISTS insert_" ++ t ++ " ON " ++ t

/-- The trigger-creation statement exactly as the specification prints it. -/
def specCreateTriggerSql (t : String) : String :=
  "CREATE TRIGGER insert_" ++ t ++ " BEFORE INSERT ON " ++ t ++
    " FOR EACH ROW EXECUTE PROCEDURE insert_" ++ t ++ "()"

end HistoryPlugin

namespace Snippets

/-- C10: the two array-transform snippets are behaviourally equivalent on the
fixed input: binding the context object through bind in src/index.js and
passing it as the lodash thisArg in the embedded variant both produce the
transformed list of 8 and 9, and both print the line with 8, 9. -/
theorem map_variants_equiv :
    transformedIndexJs = transformedEmbedded ∧
    transformedIndexJs = [8, 9] ∧
    printedLine transformedIndexJs = "8, 9" ∧
    printedLine transformedEmbedded = "8, 9" := by
  refine ⟨rfl, by decide, by decide, by decide⟩

end Snippets

namespace HistoryPlugin

/-- C6 counterexample: on the concrete table name posts_history the
function-creation statement the sync class method issues is not character for
character the statement printed in the claim, and the claimed statement text
is never issued: the code writes a space after the comma in coalesce and a
lowercase language keyword. -/
theorem sync_sql_text_counterexample :
    createInsertFnSql "posts_history" ≠ specCreateInsertFnSql "posts_history" ∧
    createInsertFnSql "posts_history" ∈ (syncRun "posts_history").queries ∧
    specCreateInsertFnSql "posts_history" ∉ (syncRun "posts_history").queries := by
  refine ⟨by decide, by decide, by decide⟩

/-- C6 amended: for every history table name t the sync class method issues
exactly the three statements built from dropInsertTrigger, createInsertFn and
createInsertTrigger; the drop statement and the trigger-creation statement
match the specification text character for character, while the
function-creation statement reads coalesce of max underscore revision with a
space before the 0 and a lowercase language keyword. -/
theorem sync_sql_text_spec (t : String) :
    (syncRun t).queries =
      [createInsertFnSql t, dropInsertTriggerSql t, createInsertTriggerSql t] ∧
    dropInsertTriggerSql t = specDropTriggerSql t ∧
    createInsertTriggerSql t = specCreateTriggerSql t ∧
    createInsertFnSql t =
      "CREATE OR REPLACE FUNCTION insert_" ++ t ++
        "() RETURNS TRIGGER AS $$ BEGIN NEW._revision := (SELECT coalesce(max(_revision), 0) FROM " ++
        t ++ " WHERE \"_sourceId\" = NEW.\"_sourceId\") + 1; RETURN NEW; END; $$ language plpgsql;" :=
  ⟨rfl, rfl, rfl, rfl⟩

/-- C7 counterexample: on the concrete table name posts_history the first
statement the sync class method issues after the base sync is the
function-creation statement, not the drop statement, so the claimed
drop-first order does not hold; the promise chain of the source runs
createInsertFn before dropInsertTrigger. -/
theorem sync_order_counterexample :
    (syncRun "posts_history").queries.head? =
      some (createInsertFnSql "posts_history") ∧
    createInsertFnSql "posts_history" ≠ dropInsertTriggerSql "posts_history" ∧
    (syncRun "posts_history").queries ≠
      [dropInsertTriggerSql "posts_history", createInsertFnSql "posts_history",
        createInsertTriggerSql "posts_history"] := by
  refine ⟨rfl, by decide, by decide⟩

/-- C7 amended: after the base table sync the sync class method issues exactly
three statements, in this order: first create or replace the stored
revision-computing function, then drop the trigger if it exists, then create
the before-insert trigger invoking that function. -/
theorem sync_order_spec (t : String) :
    (syncRun t).queries.length = 3 ∧
    (syncRun t).queries.get? 0 = some (createInsertFnSql t) ∧
    (syncRun t).queries.get? 1 = some (dropInsertTriggerSql t) ∧
    (syncRun t).queries.get? 2 = some (createInsertTriggerSql t) :=
  ⟨rfl, rfl, rfl, rfl⟩

theorem foldl_max_le_init : ∀ (l : List Nat) (i : Nat), i ≤ l.foldl max i
  | [], i => le_refl i
  | a :: rest, i =>
      le_trans (Nat.le_max_left i a) (foldl_max_le_init rest (max i a))

theorem foldl_max_le_mem : ∀ (l : List Nat) (i x : Nat), x ∈ l → x ≤ l.foldl max i
  | [], _, x, h => absurd h (List.not_mem_nil x)
  | a :: rest, i, x, h => by
      rcases List.mem_cons.mp h with h1 | h2
      · subst h1
        exact le_trans (Nat.le_max_right i x) (foldl_max_le_init rest (max i x))
      · exact foldl_max_le_mem rest (max i a) x h2

theorem rev_le_maxRevision (t : List HistRow) (sid : String) (r : HistRow)
    (hm : r ∈ t) (hs : r.sourceId = sid) : r.revision ≤ maxRevision t sid := by
  refine foldl_max_le_mem _ 0 r.revision ?_
  exact List.mem_map.mpr ⟨r, List.mem_filter.mpr ⟨hm, by simp [hs]⟩, rfl⟩

theorem rowsFor_triggerInsert (t : List HistRow) (sid : String) :
    rowsFor (triggerInsert t sid) sid =
      rowsFor t sid ++ [{ sourceId := sid, revision := maxRevision t sid + 1 }] := by
  unfold triggerInsert rowsFor
  rw [List.filter_append]
  simp

theorem maxRevision_triggerInsert (t : List HistRow) (sid : String) :
    maxRevision (triggerInsert t sid) sid = maxRevision t sid + 1 := by
  have h1 : maxRevision (triggerInsert t sid) sid =
      max (maxRevision t sid) (maxRevision t sid + 1) := by
    unfold maxRevision
    rw [rowsFor_triggerInsert, List.map_append, List.foldl_append]
    rfl
  rw [h1, Nat.max_eq_right (Nat.le_succ _)]

theorem revisionsFor_triggerInsert (t : List HistRow) (sid : String) :
    revisionsFor (triggerInsert t sid) sid =
      revisionsFor t sid ++ [maxRevision t sid + 1] := by
  unfold revisionsFor
  rw [rowsFor_triggerInsert, List.map_append]
  rfl

theorem maxRevision_iterInsert (t : List HistRow) (sid : String) (n : Nat) :
    maxRevision (iterInsert t sid n) sid = maxRevision t sid + n := by
  induction n with
  | zero => rfl
  | succ n ih =>
    show maxRevision (triggerInsert (iterInsert t sid n) sid) sid = _
    rw [maxRevision_triggerInsert, ih]
    omega

theorem revisionsFor_iterInsert (t : List HistRow) (sid : String) (n : Nat) :
    revisionsFor (iterInsert t sid n) sid =
      revisionsFor t sid ++ List.range' (maxRevision t sid + 1) n := by
  induction n with
  | zero => simp [iterInsert]
  | succ n ih =>
    show revisionsFor (triggerInsert (iterInsert t sid n) sid) sid = _
    rw [revisionsFor_triggerInsert, ih, maxRevision_iterInsert]
    rw [List.range'_1_concat, List.append_assoc]
    have harith : maxRevision t sid + 1 + n = maxRevision t sid + n + 1 := by omega
    rw [harith]

theorem pairUnique_triggerInsert (t : List HistRow) (sid : String)
    (h : pairUnique t) : pairUnique (triggerInsert t sid) := by
  unfold pairUnique triggerInsert
  rw [List.pairwise_append]
  refine ⟨h, List.pairwise_singleton _ _, ?_⟩
  intro r hr s hs
  have hsval : s = { sourceId := sid, revision := maxRevision t sid + 1 } := by
    simpa using hs
  subst hsval
  intro hss heq
  have hle := rev_le_maxRevision t sid r hr hss
  have heq2 : r.revision = maxRevision t sid + 1 := heq
  omega

theorem pairUnique_iterInsert (t : List HistRow) (sid : String) (n : Nat)
    (h : pairUnique t) : pairUnique (iterInsert t sid n) := by
  induction n with
  | zero => exact h
  | succ n ih => exact pairUnique_triggerInsert (iterInsert t sid n) sid ih

/-- C1: the before-insert trigger assigns to every inserted row the maximum
existing revision for its source id plus one, an empty row set counting as
maximum zero; consequently a sequence of n inserts for a source id that has
no rows yet produces the revisions 1 up to n in insertion order, and
uniqueness of the pair of source id and revision is preserved. -/
theorem revision_trigger_spec (t : List HistRow) (sid : String) (n : Nat)
    (hEmpty : rowsFor t sid = []) (hUniq : pairUnique t) :
    (∀ u : List HistRow, (triggerInsert u sid).getLast? =
      some { sourceId := sid, revision := maxRevision u sid + 1 }) ∧
    revisionsFor (iterInsert t sid n) sid = List.range' 1 n ∧
    pairUnique (iterInsert t sid n) := by
  refine ⟨fun u => ?_, ?_, pairUnique_iterInsert t sid n hUniq⟩
  · unfold triggerInsert
    simp
  · have hm : maxRevision t sid = 0 := by
      unfold maxRevision
      rw [hEmpty]
      rfl
    have hr : revisionsFor t sid = [] := by
      unfold revisionsFor
      rw [hEmpty]
      rfl
    rw [revisionsFor_iterInsert, hr, hm]
    simp

/-- C1 witness: starting from a table holding one row for a different source
id, three trigger inserts for source id s1 yield the revisions 1, 2, 3 and
keep the pair of source id and revision unique. -/
theorem revision_trigger_spec_witness :
    revisionsFor (iterInsert [{ sourceId := "other", revision := 5 }] "s1" 3) "s1" =
      List.range' 1 3 ∧
    pairUnique (iterInsert [{ sourceId := "other", revision := 5 }] "s1" 3) :=
  ⟨(revision_trigger_spec [{ sourceId := "other", revision := 5 }] "s1" 3
      (by decide) (by decide)).2.1,
   (revision_trigger_spec [{ sourceId := "other", revision := 5 }] "s1" 3
      (by decide) (by decide)).2.2⟩

/-- C2: when the resolved idAttr option does not name an attribute of the
source model, createHistoryModel throws the invalid-id-attribute
configuration error and no history model is produced; when it does name one,
the error branch is not taken and a history model is returned. -/
theorem idattr_validation_spec (M : SourceModel) (o : ResolvedOptions) :
    (kvLookup M.attributes o.idAttr = none →
      createHistoryModel M o =
        .error ("Invalid id attribute for model " ++ M.name ++ ": " ++ o.idAttr)) ∧
    (∀ a, kvLookup M.attributes o.idAttr = some a →
      ∃ hm, createHistoryModel M o = .ok hm) := by
  constructor
  · intro h
    unfold createHistoryModel
    rw [h]
  · intro a h
    unfold createHistoryModel
    rw [h]
    exact ⟨_, rfl⟩

/-- A small concrete source model with a single id attribute, used by the
concrete witnesses below. -/
def wModel : SourceModel :=
  { name := "m", tableName := "mt",
    attributes := [("id", [("type", PropVal.ptype "INTEGER")])] }

/-- Concrete resolved options naming a missing id attribute. -/
def wOptionsBadId : ResolvedOptions :=
  { track := ["id"], idAttr := "nope", modelName := "h", tableName := "ht" }

/-- Concrete resolved options naming the existing id attribute. -/
def wOptionsGoodId : ResolvedOptions :=
  { track := ["id"], idAttr := "id", modelName := "h", tableName := "ht" }

theorem intersection_pos_iff (a b : List String) :
    0 < (lodashIntersection a b).length ↔ ∃ x ∈ a, x ∈ b := by
  unfold lodashIntersection
  rw [List.length_pos]
  constructor
  · intro h
    obtain ⟨x, hx⟩ := List.exists_mem_of_ne_nil _ h
    rw [List.mem_dedup, List.mem_filter] at hx
    exact ⟨x, hx.1, List.elem_iff.mp hx.2⟩
  · rintro ⟨x, hxa, hxb⟩
    intro hnil
    have hx : x ∈ (a.filter fun y => b.contains y).dedup := by
      rw [List.mem_dedup, List.mem_filter]
      exact ⟨hxa, List.elem_iff.mpr hxb⟩
    rw [hnil] at hx
    exact absurd hx (List.not_mem_nil x)

/-- C3: the afterUpdate hook appends exactly one history record, built by the
history writer, precisely when the list of changed field names meets the
tracked field list; when no tracked field changed, the history table is left
unchanged and nothing is raised. -/
theorem hook_intersection_spec (hTab : List (List (String × JsVal)))
    (o : ResolvedOptions) (now : Int) (inst : Instance) :
    ((∃ f ∈ inst.changed, f ∈ o.track) →
      afterUpdateHook hTab o now inst = hTab ++ [writeHistory o now inst]) ∧
    ((¬ ∃ f ∈ inst.changed, f ∈ o.track) →
      afterUpdateHook hTab o now inst = hTab) := by
  constructor
  · intro h
    unfold afterUpdateHook
    rw [if_pos ((intersection_pos_iff inst.changed o.track).mpr h)]
  · intro h
    unfold afterUpdateHook
    rw [if_neg (fun hc => h ((intersection_pos_iff inst.changed o.track).mp hc))]

/-- Concrete resolved options tracking the fields x and y. -/
def wOptionsXY : ResolvedOptions :=
  { track := ["x", "y"], idAttr := "id", modelName := "h", tableName := "ht" }

/-- Concrete resolved options tracking only the field q. -/
def wOptionsQ : ResolvedOptions :=
  { track := ["q"], idAttr := "id", modelName := "h", tableName := "ht" }

/-- A concrete updated instance that changed the fields x and z. -/
def wInstXZ : Instance :=
  { dataValues := [("id", JsVal.num 1), ("x", JsVal.num 2)],
    previousDataValues := [("id", JsVal.num 1), ("x", JsVal.num 0)],
    changed := ["x", "z"] }

/-- C3 witness: with x tracked and changed the hook appends exactly the
record of the history writer; with only q tracked the same update leaves the
history table empty. -/
theorem hook_intersection_spec_witness :
    afterUpdateHook [] wOptionsXY 0 wInstXZ = [] ++ [writeHistory wOptionsXY 0 wInstXZ] ∧
    afterUpdateHook [] wOptionsQ 0 wInstXZ = [] :=
  ⟨(hook_intersection_spec [] wOptionsXY 0 wInstXZ).1 ⟨"x", by decide, by decide⟩,
   (hook_intersection_spec [] wOptionsQ 0 wInstXZ).2 (by decide)⟩

theorem kvLookup_applyValues_not_mem (s vs : List (String × JsVal)) (key : String)
    (h : ∀ kv ∈ vs, key ≠ kv.1) :
    kvLookup (applyValues s vs) key = kvLookup s key := by
  induction vs generalizing s with
  | nil => rfl
  | cons kv rest ih =>
    have h1 : key ≠ kv.1 := h kv (List.mem_cons_self kv rest)
    have hrest : ∀ p ∈ rest, key ≠ p.1 := fun p hp => h p (List.mem_cons_of_mem kv hp)
    have step := kvLookup_set_ne s kv.1 key kv.2 h1
    simp only [applyValues, List.foldl_cons] at ih ⊢
    exact (ih (kvSet s kv.1 kv.2) hrest).trans step

theorem kvLookup_applyValues_mem (s vs : List (String × JsVal)) (key : String)
    (v : JsVal) (hnd : (vs.map Prod.fst).Nodup) (hmem : (key, v) ∈ vs) :
    kvLookup (applyValues s vs) key = some v := by
  induction vs generalizing s with
  | nil => simp at hmem
  | cons kv rest ih =>
    rcases List.mem_cons.mp hmem with h1 | h2
    · have hkv : kv = (key, v) := h1.symm
      subst hkv
      have hnot : ∀ p ∈ rest, key ≠ p.1 := by
        intro p hp hh
        have : key ∈ rest.map Prod.fst := List.mem_map.mpr ⟨p, hp, hh.symm⟩
        exact (List.nodup_cons.mp hnd).1 this
      simp only [applyValues, List.foldl_cons]
      have hpreserve := kvLookup_applyValues_not_mem (kvSet s key v) rest key hnot
      simp only [applyValues] at hpreserve
      exact hpreserve.trans (kvLookup_set_self s key v)
    · have hne : key ≠ kv.1 := by
        intro hh
        have : kv.1 ∈ rest.map Prod.fst := List.mem_map.mpr ⟨(key, v), h2, hh⟩
        exact (List.nodup_cons.mp hnd).1 this
      simp only [applyValues, List.foldl_cons] at ih ⊢
      exact ih (kvSet s kv.1 kv.2) (List.nodup_cons.mp hnd).2 h2

/-- C8: restore propagates a persistence-layer failure of the association
getter unchanged, performing no update; on success it persists onto the source
row exactly the tracked field values carried by the history row: a tracked key
stored on the history row takes its history value, while every key outside the
tracked list, and every tracked key absent from the history row, keeps the
value the source row already had. -/
theorem restore_spec (o : ResolvedOptions) (hist : HistInstance)
    (htr : o.track.Nodup) :
    (∀ e, restore o hist (.error e) = .error e) ∧
    (∀ s s2, restore o hist (.ok s) = .ok s2 →
      (∀ k v, k ∈ o.track → kvLookup hist.dataValues k = some v →
        kvLookup s2.dataValues k = some v) ∧
      (∀ k, k ∉ o.track → kvLookup s2.dataValues k = kvLookup s.dataValues k) ∧
      (∀ k, k ∈ o.track → kvLookup hist.dataValues k = none →
        kvLookup s2.dataValues k = kvLookup s.dataValues k)) := by
  constructor
  · intro e
    rfl
  · intro s s2 hok
    have h2 : (Except.ok (sourceUpdate s (kvPick hist.dataValues o.track)) :
        Except String SourceInstance) = .ok s2 := hok
    injection h2 with h3
    have hnd := pick_keys_nodup hist.dataValues o.track htr
    refine ⟨?_, ?_, ?_⟩
    · intro k v hk hl
      rw [← h3]
      exact kvLookup_applyValues_mem s.dataValues _ k v hnd
        (mem_pick_of_lookup hist.dataValues o.track k v hk hl)
    · intro k hk
      rw [← h3]
      refine kvLookup_applyValues_not_mem s.dataValues _ k ?_
      intro kv hkv hh
      exact hk (hh ▸ fst_mem_of_mem_pick hist.dataValues o.track kv hkv)
    · intro k hk hl
      rw [← h3]
      refine kvLookup_applyValues_not_mem s.dataValues _ k ?_
      intro kv hkv hh
      have := mem_pick_lookup hist.dataValues o.track kv hkv
      rw [← hh] at this
      rw [this] at hl
      exact absurd hl (by simp)

/-- Concrete resolved options tracking only the field x. -/
def wOptionsX : ResolvedOptions :=
  { track := ["x"], idAttr := "id", modelName := "H", tableName := "h" }

/-- A concrete history row carrying a tracked value and a meta value. -/
def wHist : HistInstance :=
  { dataValues := [("x", JsVal.str "old"), ("_revision", JsVal.num 2)] }

/-- A concrete source row before restore. -/
def wSource : SourceInstance :=
  { dataValues := [("id", JsVal.num 1), ("x", JsVal.str "new"), ("z", JsVal.num 0)] }

/-- The source row produced by a successful restore of wHist onto wSource. -/
def wSourceUpdated : SourceInstance :=
  sourceUpdate wSource (kvPick wHist.dataValues wOptionsX.track)

/-- C8 witness: restoring the concrete history row writes the old tracked
value of x back, leaves the untracked field z alone, and a missing source row
propagates the not-found error of the persistence layer. -/
theorem restore_spec_witness :
    kvLookup wSourceUpdated.dataValues "x" = some (JsVal.str "old") ∧
    kvLookup wSourceUpdated.dataValues "z" = kvLookup wSource.dataValues "z" ∧
    restore wOptionsX wHist (.error "not found") = .error "not found" :=
  ⟨((restore_spec wOptionsX wHist (by decide)).2 wSource wSourceUpdated rfl).1
      "x" (JsVal.str "old") (by decide) (by decide),
   ((restore_spec wOptionsX wHist (by decide)).2 wSource wSourceUpdated rfl).2.1
      "z" (by decide),
   (restore_spec wOptionsX wHist (by decide)).1 "not found"⟩

theorem joiStrItems_ok_shape (items : List JoiItem) (l : List String)
    (h : joiStrItems items = .ok l) : items = l.map JoiItem.istr := by
  induction items generalizing l with
  | nil =>
    simp only [joiStrItems] at h
    injection h with h2
    subst h2
    rfl
  | cons it rest ih =>
    cases it with
    | istr s =>
      cases hrest : joiStrItems rest with
      | ok l2 =>
        simp only [joiStrItems, hrest] at h
        injection h with h2
        subst h2
        simp [ih l2 hrest]
      | error e => simp [joiStrItems, hrest] at h
    | inum n => simp [joiStrItems] at h
    | ibool b => simp [joiStrItems] at h

theorem joiStrItems_err (items : List JoiItem) (v : JoiItem) (hv : v ∈ items)
    (hns : ∀ s, v ≠ JoiItem.istr s) :
    joiStrItems items = .error "track must contain only strings" := by
  induction items with
  | nil => simp at hv
  | cons it rest ih =>
    cases it with
    | istr s =>
      have hvrest : v ∈ rest := by
        rcases List.mem_cons.mp hv with h1 | h2
        · exact absurd h1 (hns s)
        · exact h2
      simp only [joiStrItems, ih hvrest]
    | inum n => rfl
    | ibool b => rfl

/-- C5 amended: successful option resolution takes the supplied track when it
is an array of strings, wraps a supplied single string into a one-element
array following the single rule of the joi schema, and defaults track to the
attribute names of the model, idAttr to id, modelName to the model name
followed by History and tableName to the table name followed by underscore
history; resolution fails with the validation error when a supplied track
entry is not a string. -/
theorem options_resolution_spec (M : SourceModel) (O : CallerOptions) :
    (∀ r, resolveOptions M O = .ok r →
      (O.track = none → r.track = M.attributes.map Prod.fst) ∧
      (∀ xs, O.track = some (.jarr xs) → xs = r.track.map JoiItem.istr) ∧
      (∀ s, O.track = some (.jstr s) → r.track = [s]) ∧
      (O.idAttr = none → r.idAttr = "id") ∧
      (∀ s, O.idAttr = some (.jstr s) → r.idAttr = s) ∧
      (O.modelName = none → r.modelName = M.name ++ "History") ∧
      (O.tableName = none → r.tableName = M.tableName ++ "_history")) ∧
    (∀ xs v, O.track = some (.jarr xs) → v ∈ xs → (∀ s, v ≠ JoiItem.istr s) →
      resolveOptions M O = .error "track must contain only strings") := by
  constructor
  · intro r hok
    unfold resolveOptions at hok
    cases h1 : joiTrack (M.attributes.map Prod.fst) O.track with
    | error e => rw [h1] at hok; exact absurd hok (by simp)
    | ok track =>
      rw [h1] at hok
      cases h2 : joiStr "id" O.idAttr with
      | error e => rw [h2] at hok; exact absurd hok (by simp)
      | ok idAttr =>
        rw [h2] at hok
        cases h3 : joiStr (M.name ++ "History") O.modelName with
        | error e => rw [h3] at hok; exact absurd hok (by simp)
        | ok modelName =>
          rw [h3] at hok
          cases h4 : joiStr (M.tableName ++ "_history") O.tableName with
          | error e => rw [h4] at hok; exact absurd hok (by simp)
          | ok tableName =>
            rw [h4] at hok
            injection hok with hr
            subst hr
            refine ⟨?_, ?_, ?_, ?_, ?_, ?_, ?_⟩
            · intro ht
              rw [ht] at h1
              simp only [joiTrack] at h1
              injection h1 with h5
              rw [← h5]
            · intro xs ht
              rw [ht] at h1
              simp only [joiTrack] at h1
              exact joiStrItems_ok_shape xs track h1
            · intro s ht
              rw [ht] at h1
              simp only [joiTrack] at h1
              injection h1 with h5
              rw [← h5]
            · intro ht
              rw [ht] at h2
              simp only [joiStr] at h2
              injection h2 with h5
              rw [← h5]
            · intro s ht
              rw [ht] at h2
              simp only [joiStr] at h2
              injection h2 with h5
              rw [← h5]
            · intro ht
              rw [ht] at h3
              simp only [joiStr] at h3
              injection h3 with h5
              rw [← h5]
            · intro ht
              rw [ht] at h4
              simp only [joiStr] at h4
              injection h4 with h5
              rw [← h5]
  · intro xs v htrack hv hns
    unfold resolveOptions
    rw [htrack]
    simp only [joiTrack]
    rw [joiStrItems_err xs v hv hns]

/-- A concrete caller options object supplying track as one single string. -/
def wCallerSingle : CallerOptions :=
  { track := some (JoiVal.jstr "x"), idAttr := none,
    modelName := none, tableName := none }

/-- C5 counterexample: when the caller supplies track as the single string x,
resolution succeeds but yields the one-element array holding x, so the
resolved track is not the supplied track value; the single rule of the joi
schema wraps it. -/
theorem options_resolution_counterexample :
    wCallerSingle.track = some (JoiVal.jstr "x") ∧
    resolveOptions wModel wCallerSingle =
      .ok { track := ["x"], idAttr := "id", modelName := "mHistory",
            tableName := "mt_history" } ∧
    JoiVal.jarr (["x"].map JoiItem.istr) ≠ JoiVal.jstr "x" := by
  refine ⟨rfl, by decide, by decide⟩

/-- A concrete caller options object supplying track as an array. -/
def wCallerArr : CallerOptions :=
  { track := some (JoiVal.jarr [JoiItem.istr "a"]), idAttr := none,
    modelName := none, tableName := none }

/-- The options record resolved from wCallerArr against wModel. -/
def wResolvedArr : ResolvedOptions :=
  { track := ["a"], idAttr := "id", modelName := "mHistory",
    tableName := "mt_history" }

/-- C5 witness: resolving a supplied track array against the concrete model
keeps the array and fills in the defaulted idAttr. -/
theorem options_resolution_spec_witness :
    wResolvedArr.idAttr = "id" ∧
    [JoiItem.istr "a"] = wResolvedArr.track.map JoiItem.istr :=
  ⟨((options_resolution_spec wModel wCallerArr).1 wResolvedArr (by decide)).2.2.2.1 rfl,
   ((options_resolution_spec wModel wCallerArr).1 wResolvedArr (by decide)).2.1
      [JoiItem.istr "a"] rfl⟩

/-- C4 amended: provided no tracked field is named _sourceId, _date or
_changes, the persisted history record holds exactly the previous values of
the tracked fields, plus _sourceId carrying the current id-attribute value of
the instance (like any JavaScript property holding undefined, the key is
absent when that value is undefined), _date carrying the current time, and
_changes carrying the changed field names; every key outside the tracked
fields and the three overlay keys is absent. When a tracked field does
collide with an overlay key the lodash merge semantics of the writer apply
instead, as exhibited by the counterexample. -/
theorem write_history_record_spec (o : ResolvedOptions) (now : Int) (inst : Instance)
    (hs : "_sourceId" ∉ o.track) (hd : "_date" ∉ o.track) (hc : "_changes" ∉ o.track) :
    (getVal inst o.idAttr ≠ JsVal.jsUndefined →
      kvLookup (writeHistory o now inst) "_sourceId" = some (getVal inst o.idAttr)) ∧
    (getVal inst o.idAttr = JsVal.jsUndefined →
      kvLookup (writeHistory o now inst) "_sourceId" = none) ∧
    kvLookup (writeHistory o now inst) "_date" = some (JsVal.date now) ∧
    kvLookup (writeHistory o now inst) "_changes" =
      some (JsVal.vlist (inst.changed.map JsPrim.pstr)) ∧
    (∀ k, k ∈ o.track →
      kvLookup (writeHistory o now inst) k = kvLookup inst.previousDataValues k) ∧
    (∀ k, k ∉ o.track → k ≠ "_sourceId" → k ≠ "_date" → k ≠ "_changes" →
      kvLookup (writeHistory o now inst) k = none) := by
  unfold writeHistory mergeRecord
  have hnd : (([("_sourceId", getVal inst o.idAttr), ("_date", JsVal.date now),
      ("_changes", JsVal.vlist (inst.changed.map JsPrim.pstr))]).map Prod.fst).Nodup := by
    rw [show ([("_sourceId", getVal inst o.idAttr), ("_date", JsVal.date now),
      ("_changes", JsVal.vlist (inst.changed.map JsPrim.pstr))]).map Prod.fst =
      ["_sourceId", "_date", "_changes"] from rfl]
    decide
  have hnotmem : ∀ k, k ≠ "_sourceId" → k ≠ "_date" → k ≠ "_changes" →
      ∀ kv ∈ [("_sourceId", getVal inst o.idAttr), ("_date", JsVal.date now),
        ("_changes", JsVal.vlist (inst.changed.map JsPrim.pstr))], k ≠ kv.1 := by
    intro k h1 h2 h3 kv hkv
    rcases List.mem_cons.mp hkv with e1 | hkv2
    · rw [e1]; exact h1
    rcases List.mem_cons.mp hkv2 with e2 | hkv3
    · rw [e2]; exact h2
    rcases List.mem_cons.mp hkv3 with e3 | hkv4
    · rw [e3]; exact h3
    · exact absurd hkv4 (List.not_mem_nil kv)
  refine ⟨?_, ?_, ?_, ?_, ?_, ?_⟩
  · intro hid
    exact kvLookup_mergeInto_fresh _ _ _ _ "_sourceId" (getVal inst o.idAttr) hnd
      (by simp) (decide_eq_false hid)
      (kvLookup_pick_not_mem inst.previousDataValues o.track "_sourceId" hs)
  · intro hid
    have hall : ∀ kv ∈ [("_sourceId", getVal inst o.idAttr), ("_date", JsVal.date now),
        ("_changes", JsVal.vlist (inst.changed.map JsPrim.pstr))],
        "_sourceId" = kv.1 →
        (fun v => decide (v = JsVal.jsUndefined)) kv.2 = true := by
      intro kv hkv hk
      rcases List.mem_cons.mp hkv with e1 | hkv2
      · rw [e1]
        exact decide_eq_true hid
      rcases List.mem_cons.mp hkv2 with e2 | hkv3
      · rw [e2] at hk
        have hk2 : "_sourceId" = "_date" := hk
        exact absurd hk2 (by decide)
      rcases List.mem_cons.mp hkv3 with e3 | hkv4
      · rw [e3] at hk
        have hk2 : "_sourceId" = "_changes" := hk
        exact absurd hk2 (by decide)
      · exact absurd hkv4 (List.not_mem_nil kv)
    exact (kvLookup_mergeInto_all_skipped _ _ _ _ "_sourceId" hall).trans
      (kvLookup_pick_not_mem inst.previousDataValues o.track "_sourceId" hs)
  · exact kvLookup_mergeInto_fresh _ _ _ _ "_date" (JsVal.date now) hnd
      (by simp) (decide_eq_false (by simp [JsVal.date, JsVal.jsUndefined]))
      (kvLookup_pick_not_mem inst.previousDataValues o.track "_date" hd)
  · exact kvLookup_mergeInto_fresh _ _ _ _ "_changes"
      (JsVal.vlist (inst.changed.map JsPrim.pstr)) hnd
      (by simp) (decide_eq_false (by simp [JsVal.jsUndefined]))
      (kvLookup_pick_not_mem inst.previousDataValues o.track "_changes" hc)
  · intro k hk
    have h1 : k ≠ "_sourceId" := fun hh => hs (hh ▸ hk)
    have h2 : k ≠ "_date" := fun hh => hd (hh ▸ hk)
    have h3 : k ≠ "_changes" := fun hh => hc (hh ▸ hk)
    exact (kvLookup_mergeInto_not_mem _ _ _ _ k (hnotmem k h1 h2 h3)).trans
      (kvLookup_pick_mem inst.previousDataValues o.track k hk)
  · intro k hk h1 h2 h3
    exact (kvLookup_mergeInto_not_mem _ _ _ _ k (hnotmem k h1 h2 h3)).trans
      (kvLookup_pick_not_mem inst.previousDataValues o.track k hk)

/-- Concrete resolved options that track the field x together with a source
field named _changes. -/
def cOptions : ResolvedOptions :=
  { track := ["_changes", "x"], idAttr := "id", modelName := "H", tableName := "h" }

/-- A concrete updated instance that changed the tracked field x, so the
hook fires, and whose tracked previous value under _changes is a two-element
array. -/
def cInstance : Instance :=
  { dataValues := [("id", JsVal.num 7), ("x", JsVal.num 2),
      ("_changes", JsVal.vlist [JsPrim.pstr "x"])],
    previousDataValues := [("x", JsVal.num 1),
      ("_changes", JsVal.vlist [JsPrim.pstr "a", JsPrim.pstr "b"])],
    changed := ["x"] }

/-- C4 counterexample: the update changed the tracked field x, so the
afterUpdate hook does trigger a history write and appends exactly this
record; yet because a tracked source field named _changes holds the previous
array of a and b, the persisted record does not carry the changed-field list
x: the lodash merge combines the two arrays index-wise and the record holds
x and b, so the claimed record shape fails on this in-domain input. -/
theorem write_history_record_counterexample :
    afterUpdateHook [] cOptions 0 cInstance = [writeHistory cOptions 0 cInstance] ∧
    "_changes" ∈ cOptions.track ∧
    kvLookup (writeHistory cOptions 0 cInstance) "_changes" =
      some (JsVal.vlist [JsPrim.pstr "x", JsPrim.pstr "b"]) ∧
    kvLookup (writeHistory cOptions 0 cInstance) "_changes" ≠
      some (JsVal.vlist (cInstance.changed.map JsPrim.pstr)) := by
  refine ⟨by decide, by decide, by decide, by decide⟩

/-- Concrete resolved options tracking the plain field x. -/
def wOptions4 : ResolvedOptions :=
  { track := ["x"], idAttr := "id", modelName := "H", tableName := "h" }

/-- A concrete updated instance with an id and previous values. -/
def wInst4 : Instance :=
  { dataValues := [("id", JsVal.num 3), ("x", JsVal.num 9)],
    previousDataValues := [("id", JsVal.num 3), ("x", JsVal.num 1), ("y", JsVal.num 5)],
    changed := ["x"] }

/-- C4 witness: on the concrete instance the record carries the current id
value under _sourceId and the write time under _date. -/
theorem write_history_record_spec_witness :
    kvLookup (writeHistory wOptions4 5 wInst4) "_sourceId" =
      some (getVal wInst4 wOptions4.idAttr) ∧
    kvLookup (writeHistory wOptions4 5 wInst4) "_date" = some (JsVal.date 5) :=
  ⟨(write_history_record_spec wOptions4 5 wInst4
      (by decide) (by decide) (by decide)).1 (by decide),
   (write_history_record_spec wOptions4 5 wInst4
      (by decide) (by decide) (by decide)).2.2.1⟩

universe w

theorem kvLookup_self_of_nodup {α : Type w} (l : List (String × α))
    (hnd : (l.map Prod.fst).Nodup) (k : String) (v : α) (hm : (k, v) ∈ l) :
    kvLookup l k = some v := by
  induction l with
  | nil => simp at hm
  | cons p rest ih =>
    rcases List.mem_cons.mp hm with h1 | h2
    · rw [← h1]
      simp [kvLookup]
    · obtain ⟨k1, v1⟩ := p
      have hne : ¬ k1 = k := by
        intro hh
        subst hh
        have : k1 ∈ rest.map Prod.fst := List.mem_map.mpr ⟨(k1, v), h2, rfl⟩
        exact (List.nodup_cons.mp hnd).1 this
      simp only [kvLookup, if_neg hne]
      exact ih (List.nodup_cons.mp hnd).2 h2

theorem mergeProps_meta (qs ps : AttrDef) (hnd : (ps.map Prod.fst).Nodup) :
    ∀ p ∈ ps, kvLookup (mergeProps qs ps) p.1 = some p.2 := by
  intro p hp
  obtain ⟨k, v⟩ := p
  cases hq : kvLookup qs k with
  | some old =>
    exact kvLookup_mergeInto_found (fun _ => false) (fun _ new2 => new2)
      qs ps k v old hnd hp rfl hq
  | none =>
    exact kvLookup_mergeInto_fresh (fun _ => false) (fun _ new2 => new2)
      qs ps k v hnd hp rfl hq

/-- What it means for a meta attribute definition to take precedence in a
resulting attribute entry: a bare DataTypes shorthand appears verbatim, and a
definition object has every one of its properties present with its own value,
destination-only properties aside. -/
def metaWins : AttrVal → AttrVal → Prop
  | .typ s, r => r = .typ s
  | .obj mps, r => ∃ rps, r = .obj rps ∧ ∀ p ∈ mps, kvLookup rps p.1 = some p.2

theorem metaWins_self (d : AttrVal)
    (hnd : ∀ mps, d = .obj mps → (mps.map Prod.fst).Nodup) : metaWins d d := by
  cases d with
  | typ s => rfl
  | obj mps =>
    exact ⟨mps, rfl, fun p hp =>
      kvLookup_self_of_nodup mps (hnd mps rfl) p.1 p.2 hp⟩

theorem metaWins_mergeAttrVal (old d : AttrVal)
    (hnd : ∀ mps, d = .obj mps → (mps.map Prod.fst).Nodup) :
    metaWins d (mergeAttrVal old d) := by
  cases d with
  | typ s =>
    show mergeAttrVal old (.typ s) = .typ s
    rfl
  | obj mps =>
    cases old with
    | obj qs =>
      exact ⟨mergeProps qs mps, rfl, mergeProps_meta qs mps (hnd mps rfl)⟩
    | typ t2 =>
      exact ⟨mps, rfl, fun p hp =>
        kvLookup_self_of_nodup mps (hnd mps rfl) p.1 p.2 hp⟩

theorem metaAttrs_props_nodup (idType : PropVal) (m : String) (d : AttrVal)
    (hm : (m, d) ∈ metaAttrs idType) :
    ∀ mps, d = .obj mps → (mps.map Prod.fst).Nodup := by
  intro mps heq
  simp only [metaAttrs, List.mem_cons, List.not_mem_nil, or_false] at hm
  rcases hm with h | h | h | h | h | h
  · injection h with h1 h2
    subst h2
    injection heq with h3
    subst h3
    decide
  · injection h with h1 h2
    subst h2
    injection heq with h3
    subst h3
    rw [show ([("type", idType), ("allowNull", PropVal.pflag false),
      ("unique", PropVal.pname "naturalId")]).map Prod.fst =
      ["type", "allowNull", "unique"] from rfl]
    decide
  · injection h with h1 h2
    subst h2
    injection heq with h3
    subst h3
    decide
  · injection h with h1 h2
    subst h2
    exact absurd heq (by simp)
  · injection h with h1 h2
    subst h2
    exact absurd heq (by simp)
  · injection h with h1 h2
    subst h2
    exact absurd heq (by simp)

/-- C9 amended: the six meta attribute definitions are lodash-merged over the
tracked attribute map after the tracked fields, so at a name collision the
meta side takes precedence property-wise: a bare DataTypes meta shorthand
replaces the tracked definition wholesale, and a meta definition object wins
at every one of its own properties while tracked-only properties survive; a
collision never raises an error, the only builder error being the invalid
idAttr one. In the written record _date always carries the write time, while
_sourceId and _changes take precedence through the lodash value merge: a
non-array previous value is replaced outright, and an array previous value
merges index-wise with the overlay array. -/
theorem meta_precedence_spec (M : SourceModel) (o : ResolvedOptions)
    (now : Int) (inst : Instance) :
    (∀ e, createHistoryModel M o = .error e →
      kvLookup M.attributes o.idAttr = none) ∧
    (∀ idA hm, kvLookup M.attributes o.idAttr = some idA →
      createHistoryModel M o = .ok hm →
      ∀ m d, (m, d) ∈ metaAttrs (attrTypeOf idA) →
        ∃ r, kvLookup hm.attrs m = some r ∧ metaWins d r) ∧
    kvLookup (writeHistory o now inst) "_date" = some (JsVal.date now) ∧
    (∀ old, kvLookup (kvPick inst.previousDataValues o.track) "_sourceId" = some old →
      getVal inst o.idAttr ≠ JsVal.jsUndefined →
      kvLookup (writeHistory o now inst) "_sourceId" =
        some (mergeJsVal old (getVal inst o.idAttr))) ∧
    (∀ old, kvLookup (kvPick inst.previousDataValues o.track) "_changes" = some old →
      kvLookup (writeHistory o now inst) "_changes" =
        some (mergeJsVal old (JsVal.vlist (inst.changed.map JsPrim.pstr)))) ∧
    (∀ old new2, old.isList = false → new2 ≠ JsVal.jsUndefined →
      mergeJsVal old new2 = new2) := by
  have hndov : (([("_sourceId", getVal inst o.idAttr), ("_date", JsVal.date now),
      ("_changes", JsVal.vlist (inst.changed.map JsPrim.pstr))]).map Prod.fst).Nodup := by
    rw [show ([("_sourceId", getVal inst o.idAttr), ("_date", JsVal.date now),
      ("_changes", JsVal.vlist (inst.changed.map JsPrim.pstr))]).map Prod.fst =
      ["_sourceId", "_date", "_changes"] from rfl]
    decide
  refine ⟨?_, ?_, ?_, ?_, ?_, mergeJsVal_dst_not_list⟩
  · intro e he
    cases hl : kvLookup M.attributes o.idAttr with
    | none => rfl
    | some a =>
      unfold createHistoryModel at he
      rw [hl] at he
      exact absurd he (by simp)
  · intro idA hm hl hok m d hmd
    unfold createHistoryModel at hok
    rw [hl] at hok
    injection hok with h2
    subst h2
    have hndsrc : ((metaAttrs (attrTypeOf idA)).map Prod.fst).Nodup := by
      rw [show (metaAttrs (attrTypeOf idA)).map Prod.fst =
        ["_id", "_sourceId", "_revision", "_user", "_date", "_changes"] from rfl]
      decide
    have hpn := metaAttrs_props_nodup (attrTypeOf idA) m d hmd
    cases hold : kvLookup ((kvPick M.attributes o.track).map
        (fun p => (p.1, AttrVal.obj (omitProp p.2 "autoIncrement")))) m with
    | some oldv =>
      refine ⟨mergeAttrVal oldv d, ?_, metaWins_mergeAttrVal oldv d hpn⟩
      exact kvLookup_mergeInto_found (fun _ => false) mergeAttrVal _ _ m d oldv
        hndsrc hmd rfl hold
    | none =>
      refine ⟨d, ?_, metaWins_self d hpn⟩
      exact kvLookup_mergeInto_fresh (fun _ => false) mergeAttrVal _ _ m d
        hndsrc hmd rfl hold
  · unfold writeHistory mergeRecord
    cases hold : kvLookup (kvPick inst.previousDataValues o.track) "_date" with
    | some oldv =>
      have hfound := kvLookup_mergeInto_found
        (fun v => decide (v = JsVal.jsUndefined)) mergeJsVal
        (kvPick inst.previousDataValues o.track) _ "_date" (JsVal.date now) oldv
        hndov (by simp) (decide_eq_false (by simp [JsVal.date, JsVal.jsUndefined])) hold
      rw [hfound, mergeJsVal_src_not_list oldv (JsVal.date now) rfl
        (by simp [JsVal.date, JsVal.jsUndefined])]
    | none =>
      exact kvLookup_mergeInto_fresh _ _ _ _ "_date" (JsVal.date now) hndov
        (by simp) (decide_eq_false (by simp [JsVal.date, JsVal.jsUndefined])) hold
  · intro old hold hid
    unfold writeHistory mergeRecord
    exact kvLookup_mergeInto_found _ _ _ _ "_sourceId" (getVal inst o.idAttr) old
      hndov (by simp) (decide_eq_false hid) hold
  · intro old hold
    unfold writeHistory mergeRecord
    exact kvLookup_mergeInto_found _ _ _ _ "_changes"
      (JsVal.vlist (inst.changed.map JsPrim.pstr)) old
      hndov (by simp) (decide_eq_false (by simp [JsVal.jsUndefined])) hold

/-- A concrete source model with an id attribute and a source attribute named
_revision that carries an extra allowNull property. -/
def cModel9 : SourceModel :=
  { name := "m", tableName := "mt",
    attributes := [("id", [("type", PropVal.ptype "INTEGER")]),
      ("_revision", [("type", PropVal.ptype "TEXT"),
        ("allowNull", PropVal.pflag false)])] }

/-- Concrete resolved options tracking the colliding field _revision. -/
def cOptions9 : ResolvedOptions :=
  { track := ["_revision"], idAttr := "id", modelName := "mHistory",
    tableName := "m_history" }

/-- Concrete resolved options tracking a source field named _changes. -/
def cOptions9r : ResolvedOptions :=
  { track := ["_changes"], idAttr := "id", modelName := "mHistory",
    tableName := "m_history" }

/-- A concrete updated instance whose previous _changes value is a
three-element number array while the update changed only the field y. -/
def cInstance9 : Instance :=
  { dataValues := [("id", JsVal.num 1)],
    previousDataValues :=
      [("_changes", JsVal.vlist [JsPrim.pnum 1, JsPrim.pnum 2, JsPrim.pnum 3])],
    changed := ["y"] }

/-- C9 counterexample: the builder does not silently overwrite a colliding
tracked definition with the meta definition: the resulting _revision entry
keeps the tracked allowNull property next to the meta properties, so it
differs from the meta definition; and in the written record a tracked array
value under _changes is not overwritten but merged index-wise, so the
surplus previous elements survive. -/
theorem meta_precedence_counterexample :
    (createHistoryModel cModel9 cOptions9).map
        (fun hm => kvLookup hm.attrs "_revision") =
      .ok (some (AttrVal.obj [("type", PropVal.ptype "INTEGER"),
        ("allowNull", PropVal.pflag false), ("unique", PropVal.pname "naturalId")])) ∧
    AttrVal.obj [("type", PropVal.ptype "INTEGER"),
        ("allowNull", PropVal.pflag false), ("unique", PropVal.pname "naturalId")] ≠
      AttrVal.obj [("type", PropVal.ptype "INTEGER"),
        ("unique", PropVal.pname "naturalId")] ∧
    kvLookup (writeHistory cOptions9r 0 cInstance9) "_changes" =
      some (JsVal.vlist [JsPrim.pstr "y", JsPrim.pnum 2, JsPrim.pnum 3]) ∧
    kvLookup (writeHistory cOptions9r 0 cInstance9) "_changes" ≠
      some (JsVal.vlist (cInstance9.changed.map JsPrim.pstr)) := by
  refine ⟨by decide, by decide, by decide, by decide⟩

/-- C9 witness: on the concrete colliding instance the record holds the
index-wise merge of the previous array with the changed-field array, applied
through the amended theorem at a concrete input. -/
theorem meta_precedence_spec_witness :
    kvLookup (writeHistory cOptions9r 0 cInstance9) "_changes" =
      some (mergeJsVal (JsVal.vlist [JsPrim.pnum 1, JsPrim.pnum 2, JsPrim.pnum 3])
        (JsVal.vlist (cInstance9.changed.map JsPrim.pstr))) :=
  (meta_precedence_spec cModel9 cOptions9r 0 cInstance9).2.2.2.2.1
    (JsVal.vlist [JsPrim.pnum 1, JsPrim.pnum 2, JsPrim.pnum 3]) (by decide)

/-- C2 witness: the concrete model rejects the idAttr nope with the
configuration error and accepts the idAttr id. -/
theorem idattr_validation_spec_witness :
    createHistoryModel wModel wOptionsBadId =
      .error "Invalid id attribute for model m: nope" ∧
    (∃ hm, createHistoryModel wModel wOptionsGoodId = .ok hm) :=
  ⟨(idattr_validation_spec wModel wOptionsBadId).1 rfl,
   (idattr_validation_spec wModel wOptionsGoodId).2
      [("type", PropVal.ptype "INTEGER")] rfl⟩

end HistoryPlugin
